import Mathlib

/-!
Verification of the mDNS / DNS-SD message codec declared in mdns.h.

The repository sources contain only the declarations of the codec
(mdns.h); the bodies of the functions are not part of the sources.
Every operational definition below is therefore modelled from the
specification document of the repository, faithful to its words, and
the claims are settled against these models.

Buffers are byte sequences, modelled as List Nat with byte values
below 256; offsets and sizes are Nat.
-/

set_option linter.unusedVariables false

/-- Modelled from the spec: the error taxonomy of section 7.  The
implementation (bodies of the mdns functions) is absent from the sources. -/
inductive MdnsError where
  | truncated
  | malformedName
  | malformedRecord
  | capacityExceeded
deriving DecidableEq, Repr

/-- Result of reading the run of length-prefixed labels of a name in the
original byte stream, before any compression jump is taken: the labels
read, the number of bytes consumed up to and including the terminator or
the 2-byte compression pointer, and for a pointer its 14-bit target. -/
inductive NameChunk where
  | term (labels : List (List Nat)) (consumed : Nat)
  | ptr (labels : List (List Nat)) (consumed : Nat) (target : Nat)
  | bad
deriving DecidableEq, Repr

/-- Modelled from the spec: read length-prefixed labels from a byte suffix
until a zero terminator or a compression pointer is met.  A length byte
with the two high bits set (mask 0xC0, hence a byte value of at least 192)
is a compression pointer whose remaining 14 bits, together with the next
byte, give the absolute target offset.  The fuel argument only needs to be
at least the length of the suffix; each step consumes at least one byte. -/
def readLabelsAux : Nat → List Nat → NameChunk
  | _, [] => .bad
  | 0, _ :: _ => .bad
  | fuel + 1, b :: rest =>
    if 192 ≤ b then
      match rest with
      | [] => .bad
      | b2 :: _ => .ptr [] 2 ((b - 192) * 256 + b2)
    else if b = 0 then
      .term [] 1
    else if b ≤ rest.length then
      match readLabelsAux fuel (rest.drop b) with
      | .term ls n => .term (rest.take b :: ls) (1 + b + n)
      | .ptr ls n t => .ptr (rest.take b :: ls) (1 + b + n) t
      | .bad => .bad
    else .bad

/-- Read the label run found at the start of a byte suffix. -/
def readLabelsS (s : List Nat) : NameChunk :=
  readLabelsAux s.length s

/-- Modelled from the spec: the pointer-chasing part of the name codec
(body of mdns_string_extract, absent from the sources).  Each compression
pointer taken must target a position strictly earlier than the position of
the pointer itself, and the number of pointer follows is capped by a
defensive bound (the callers use the buffer size).  Both a violation of
the monotonic-backward rule and exhaustion of the follow bound fail with
MalformedName, as do out-of-bounds reads. -/
def chaseLabels (buffer : List Nat) : Nat → Nat → Except MdnsError (List (List Nat))
  | 0, cur =>
    match readLabelsS (buffer.drop cur) with
    | .bad => .error .malformedName
    | .term ls _ => .ok ls
    | .ptr _ _ _ => .error .malformedName
  | fl + 1, cur =>
    match readLabelsS (buffer.drop cur) with
    | .bad => .error .malformedName
    | .term ls _ => .ok ls
    | .ptr ls n t =>
      if t + 2 < cur + n then
        match chaseLabels buffer fl t with
        | .ok more => .ok (ls ++ more)
        | .error e => .error e
      else .error .malformedName

/-- Modelled from the spec: decode the name starting at an offset,
returning its labels and the new offset, which is the position just after
the first pointer or terminator met in the original stream.  The first
pointer taken must also point strictly backward. -/
def extractLabels (buffer : List Nat) (offset : Nat) :
    Except MdnsError (List (List Nat) × Nat) :=
  match readLabelsS (buffer.drop offset) with
  | .bad => .error .malformedName
  | .term ls n => .ok (ls, offset + n)
  | .ptr ls n t =>
    if t + 2 < offset + n then
      match chaseLabels buffer buffer.length t with
      | .ok more => .ok (ls ++ more, offset + n)
      | .error e => .error e
    else .error .malformedName

/-- Split a byte list on a separator byte; always returns at least one
piece, and no piece contains the separator. -/
def splitOnByte (sep : Nat) : List Nat → List (List Nat)
  | [] => [[]]
  | c :: cs =>
    if c = sep then [] :: splitOnByte sep cs
    else (splitOnByte sep cs).modifyHead (fun h => c :: h)

/-- Join byte lists with a separator byte between consecutive pieces. -/
def joinSep (sep : Nat) : List (List Nat) → List Nat
  | [] => []
  | [l] => l
  | l :: l2 :: ls => l ++ sep :: joinSep sep (l2 :: ls)

/-- Wire encoding of a label sequence: each label is length-prefixed and
the sequence ends with a zero-length label. -/
def encodeLabels : List (List Nat) → List Nat
  | [] => [0]
  | l :: ls => l.length :: (l ++ encodeLabels ls)

/-- Wire encoding of a label sequence without the terminator, used before
emitting a compression pointer. -/
def encodeLabelsNoTerm : List (List Nat) → List Nat
  | [] => []
  | l :: ls => l.length :: (l ++ encodeLabelsNoTerm ls)

/-- ASCII lower-casing of one byte. -/
def asciiToLower (c : Nat) : Nat :=
  if 65 ≤ c ∧ c ≤ 90 then c + 32 else c

/-- Modelled from the spec: body of mdns_string_extract (absent from the
sources).  Decodes the name at the offset, writes the labels dot-joined
into scratch storage of the given capacity, and returns the decoded bytes
together with the new offset.  When the scratch capacity is too small the
decoded length is truncated to zero as the signal. -/
def mdns_string_extract (buffer : List Nat) (offset capacity : Nat) :
    Except MdnsError (List Nat × Nat) :=
  match extractLabels buffer offset with
  | .error e => .error e
  | .ok (ls, e) =>
    let s := joinSep 46 ls
    if s.length ≤ capacity then .ok (s, e) else .ok ([], e)

/-- Modelled from the spec: body of mdns_string_skip (absent from the
sources).  Advances past a name without materializing it, honoring the
same pointer semantics as extraction. -/
def mdns_string_skip (buffer : List Nat) (offset : Nat) :
    Except MdnsError Nat :=
  match extractLabels buffer offset with
  | .error e => .error e
  | .ok (_, e) => .ok e

/-- Modelled from the spec: body of mdns_string_equal (absent from the
sources).  Compares two possibly compressed names label by label,
case-insensitively, across two buffers. -/
def mdns_string_equal (bufL : List Nat) (ofsL : Nat)
    (bufR : List Nat) (ofsR : Nat) : Bool :=
  match extractLabels bufL ofsL, extractLabels bufR ofsR with
  | .ok (la, _), .ok (lb, _) =>
    decide (la.map (List.map asciiToLower) = lb.map (List.map asciiToLower))
  | _, _ => false

/-- Modelled from the spec: body of mdns_string_make (absent from the
sources).  Encodes a literal dotted name, validating that every label has
1 to 63 bytes and that the encoded form is at most 255 bytes, and failing
when the destination capacity is too small. -/
def mdns_string_make (capacity : Nat) (name : List Nat) :
    Except MdnsError (List Nat) :=
  let ls := splitOnByte 46 name
  if (∀ l ∈ ls, 1 ≤ l.length ∧ l.length ≤ 63) ∧ (encodeLabels ls).length ≤ 255 then
    if (encodeLabels ls).length ≤ capacity then .ok (encodeLabels ls)
    else .error .capacityExceeded
  else .error .malformedName

/-- Modelled from the spec: body of mdns_string_make_ref (absent from the
sources).  Emits a bare 2-byte compression pointer to the given offset,
which must fit in 14 bits. -/
def mdns_string_make_ref (capacity refOffset : Nat) :
    Except MdnsError (List Nat) :=
  if refOffset < 16384 then
    if 2 ≤ capacity then .ok [192 + refOffset / 256, refOffset % 256]
    else .error .capacityExceeded
  else .error .malformedName

/-- Modelled from the spec: body of mdns_string_make_with_ref (absent from
the sources).  Encodes the leading labels of the name literally and then a
compression pointer for the remaining shared suffix. -/
def mdns_string_make_with_ref (capacity : Nat) (name : List Nat)
    (refOffset : Nat) : Except MdnsError (List Nat) :=
  if name = [] then mdns_string_make_ref capacity refOffset
  else
    let ls := splitOnByte 46 name
    if (∀ l ∈ ls, 1 ≤ l.length ∧ l.length ≤ 63) ∧
        (encodeLabelsNoTerm ls).length + 2 ≤ 255 then
      if refOffset < 16384 then
        if (encodeLabelsNoTerm ls).length + 2 ≤ capacity then
          .ok (encodeLabelsNoTerm ls ++ [192 + refOffset / 256, refOffset % 256])
        else .error .capacityExceeded
      else .error .malformedName
    else .error .malformedName

/-- Spec-side characterization for claim C6: the position just after the
first compression pointer or zero terminator met in the original stream,
computed without following any compression jump and without the backward
validation of the codec. -/
def firstStopAux : Nat → List Nat → Option Nat
  | _, [] => none
  | 0, _ :: _ => none
  | fuel + 1, b :: rest =>
    if 192 ≤ b then
      match rest with
      | [] => none
      | _ :: _ => some 2
    else if b = 0 then some 1
    else if b ≤ rest.length then
      match firstStopAux fuel (rest.drop b) with
      | some m => some (1 + b + m)
      | none => none
    else none

/-- End position of the name run at an offset, per the spec words of C6. -/
def firstStopEnd (buffer : List Nat) (offset : Nat) : Option Nat :=
  match firstStopAux (buffer.drop offset).length (buffer.drop offset) with
  | some m => some (offset + m)
  | none => none

/-- Spec-side characterization for claim C1: walking the pointer chain
exactly as the chase of the name codec does, true when some pointer met
along the chain (within the follow budget) does not point strictly
backward relative to its own position. -/
def chaseViolates (buffer : List Nat) : Nat → Nat → Bool
  | 0, cur =>
    match readLabelsS (buffer.drop cur) with
    | .ptr _ n t => if t + 2 < cur + n then false else true
    | _ => false
  | fl + 1, cur =>
    match readLabelsS (buffer.drop cur) with
    | .ptr _ n t => if t + 2 < cur + n then chaseViolates buffer fl t else true
    | _ => false

/-- Spec-side characterization for claim C1: the name at the offset
reaches, at its origin or anywhere later along the followed pointer
chain, a compression pointer that does not point strictly backward. -/
def extractViolates (buffer : List Nat) (offset : Nat) : Bool :=
  match readLabelsS (buffer.drop offset) with
  | .ptr _ n t =>
    if t + 2 < offset + n then chaseViolates buffer buffer.length t else true
  | _ => false

/-- The sentinel position of the codec, (size_t)(-1) on a 64-bit host. -/
def MDNS_INVALID_POS : Nat := 18446744073709551615

/-- Big-endian 16-bit read at an offset (callers bounds-check first). -/
def readU16 (buffer : List Nat) (o : Nat) : Nat :=
  256 * buffer.getD o 0 + buffer.getD (o + 1) 0

/-- Big-endian 32-bit read at an offset (callers bounds-check first). -/
def readU32 (buffer : List Nat) (o : Nat) : Nat :=
  65536 * readU16 buffer o + readU16 buffer (o + 2)

/-- Big-endian 16-bit write, truncating to the field width. -/
def writeU16 (n : Nat) : List Nat :=
  [n % 65536 / 256, n % 256]

/-- Modelled from the spec: one entry handed to the record callback by the
message scanner (entry section, transaction id of the message, record
type, class, time to live, and the data slice as offset and length). -/
structure MdnsEntry where
  entryType : Nat
  transactionId : Nat
  rtype : Nat
  rclass : Nat
  ttl : Nat
  dataOfs : Nat
  dataLen : Nat
deriving DecidableEq, Repr

/-- Modelled from the spec: scan one entry of a section (body of the
message scanner, absent from the sources).  The name is skipped, then the
fixed fields are read after a bounds check; a non-question entry also
carries a time to live and a data length, and the declared data length
must fit in the remaining buffer, otherwise the entry is malformed. -/
def scanEntry (buffer : List Nat) (tid etype ofs : Nat) :
    Option (MdnsEntry × Nat) :=
  match mdns_string_skip buffer ofs with
  | .error _ => none
  | .ok nameEnd =>
    if etype = 0 then
      if nameEnd + 4 ≤ buffer.length then
        some ({ entryType := 0, transactionId := tid,
                rtype := readU16 buffer nameEnd,
                rclass := readU16 buffer (nameEnd + 2),
                ttl := 0, dataOfs := nameEnd + 4, dataLen := 0 },
              nameEnd + 4)
      else none
    else
      if nameEnd + 10 ≤ buffer.length then
        if nameEnd + 10 + readU16 buffer (nameEnd + 8) ≤ buffer.length then
          some ({ entryType := etype, transactionId := tid,
                  rtype := readU16 buffer nameEnd,
                  rclass := readU16 buffer (nameEnd + 2),
                  ttl := readU32 buffer (nameEnd + 4),
                  dataOfs := nameEnd + 10,
                  dataLen := readU16 buffer (nameEnd + 8) },
                nameEnd + 10 + readU16 buffer (nameEnd + 8))
        else none
      else none

/-- Modelled from the spec: scan up to count entries of one section,
collecting the entries delivered to the callback; a malformed entry stops
the scan and reports no continuation offset. -/
def scanSection (buffer : List Nat) (tid etype : Nat) :
    Nat → Nat → List MdnsEntry × Option Nat
  | 0, ofs => ([], some ofs)
  | count + 1, ofs =>
    match scanEntry buffer tid etype ofs with
    | none => ([], none)
    | some (e, ofs2) =>
      let r := scanSection buffer tid etype count ofs2
      (e :: r.1, r.2)

/-- Modelled from the spec: scan up to count entries of one section while
accumulating the values returned by the record callback, as the C scanner
threads its result counter. -/
def scanSectionAcc (buffer : List Nat) (cb : MdnsEntry → Nat)
    (tid etype : Nat) : Nat → Nat → Nat × Option Nat
  | 0, ofs => (0, some ofs)
  | count + 1, ofs =>
    match scanEntry buffer tid etype ofs with
    | none => (0, none)
    | some (e, ofs2) =>
      let r := scanSectionAcc buffer cb tid etype count ofs2
      (cb e + r.1, r.2)

/-- Modelled from the spec: the list of entries a scan of one inbound
datagram delivers to the callback.  A datagram shorter than the 12-byte
header delivers nothing; the four sections are walked in order and a
malformed entry aborts the remainder of the datagram while keeping the
entries already delivered. -/
def deliveredEntries (buffer : List Nat) : List MdnsEntry :=
  if buffer.length < 12 then []
  else
    match scanSection buffer (readU16 buffer 0) 0 (readU16 buffer 4) 12 with
    | (q1, none) => q1
    | (q1, some o1) =>
      match scanSection buffer (readU16 buffer 0) 1 (readU16 buffer 6) o1 with
      | (a1, none) => q1 ++ a1
      | (a1, some o2) =>
        match scanSection buffer (readU16 buffer 0) 2 (readU16 buffer 8) o2 with
        | (u1, none) => q1 ++ a1 ++ u1
        | (u1, some o3) =>
          match scanSection buffer (readU16 buffer 0) 3 (readU16 buffer 10) o3 with
          | (d1, _) => q1 ++ a1 ++ u1 ++ d1

/-- Modelled from the spec: scan one inbound datagram, accumulating the
callback return values, as the receive functions of the library do. -/
def mdnsScanAcc (buffer : List Nat) (cb : MdnsEntry → Nat) : Nat :=
  if buffer.length < 12 then 0
  else
    match scanSectionAcc buffer cb (readU16 buffer 0) 0 (readU16 buffer 4) 12 with
    | (q1, none) => q1
    | (q1, some o1) =>
      match scanSectionAcc buffer cb (readU16 buffer 0) 1 (readU16 buffer 6) o1 with
      | (a1, none) => q1 + a1
      | (a1, some o2) =>
        match scanSectionAcc buffer cb (readU16 buffer 0) 2 (readU16 buffer 8) o2 with
        | (u1, none) => q1 + a1 + u1
        | (u1, some o3) =>
          match scanSectionAcc buffer cb (readU16 buffer 0) 3 (readU16 buffer 10) o3 with
          | (d1, _) => q1 + a1 + u1 + d1

/-- Modelled from the spec: body of mdns_socket_listen (absent from the
sources), the scanning part for one datagram already placed in the
caller buffer. -/
def mdns_socket_listen (buffer : List Nat) (cb : MdnsEntry → Nat) : Nat :=
  mdnsScanAcc buffer cb

/-- Modelled from the spec: body of mdns_discovery_recv (absent from the
sources); every entry of the datagram is forwarded unconditionally. -/
def mdns_discovery_recv (buffer : List Nat) (cb : MdnsEntry → Nat) : Nat :=
  mdnsScanAcc buffer cb

/-- Modelled from the spec: body of mdns_query_recv (absent from the
sources).  The transaction id of the most recent query sent on the socket
is caller state passed in; with the last-query filter on, a datagram whose
transaction id differs delivers nothing. -/
def mdns_query_recv (lastTid : Nat) (buffer : List Nat)
    (cb : MdnsEntry → Nat) (onlyLast : Bool) : Nat :=
  if onlyLast = true ∧ readU16 buffer 0 ≠ lastTid then 0
  else mdnsScanAcc buffer cb

/-- The entries mdns_query_recv hands to its callback. -/
def queryRecvDelivered (lastTid : Nat) (buffer : List Nat)
    (onlyLast : Bool) : List MdnsEntry :=
  if onlyLast = true ∧ readU16 buffer 0 ≠ lastTid then []
  else deliveredEntries buffer

/-- Modelled from the spec: body of mdns_query_send (absent from the
sources).  Builds a single-question query with the given transaction id
and returns the datagram together with the id used, so the caller can
correlate responses. -/
def mdns_query_send (tid : Nat) (qname : List Nat) (rtype capacity : Nat) :
    Except MdnsError (List Nat × Nat) :=
  match mdns_string_make capacity qname with
  | .error e => .error e
  | .ok enc =>
    let dgram := writeU16 tid ++ writeU16 0 ++ writeU16 1 ++ writeU16 0 ++
      writeU16 0 ++ writeU16 0 ++ enc ++ writeU16 rtype ++ writeU16 1
    if dgram.length ≤ capacity then .ok (dgram, tid % 65536)
    else .error .capacityExceeded

/-- Split a TXT sub-string on its first equals sign (byte 61): the key is
what precedes it and the value what follows; without an equals sign the
whole sub-string is the key and the value is empty. -/
def splitFirst (sep : Nat) : List Nat → List Nat × List Nat
  | [] => ([], [])
  | c :: cs =>
    if c = sep then ([], cs)
    else ((c :: (splitFirst sep cs).1), (splitFirst sep cs).2)

/-- Modelled from the spec: iterate the length-prefixed sub-strings of a
TXT payload, splitting each on its first equals sign, stopping when the
record storage capacity is reached, and failing with MalformedRecord when
a declared sub-string length exceeds the remaining record bytes. -/
def parseTxtAux : Nat → List Nat → Except MdnsError (List (List Nat × List Nat))
  | _, [] => .ok []
  | 0, _ :: _ => .ok []
  | cap + 1, n :: rest =>
    if n ≤ rest.length then
      match parseTxtAux cap (rest.drop n) with
      | .ok ps => .ok (splitFirst 61 (rest.take n) :: ps)
      | .error e => .error e
    else .error .malformedRecord

/-- Modelled from the spec: body of mdns_record_parse_txt (absent from the
sources), applied to the data slice of a TXT entry. -/
def mdns_record_parse_txt (buffer : List Nat) (offset length capacity : Nat) :
    Except MdnsError (List (List Nat × List Nat)) :=
  if offset + length ≤ buffer.length then
    parseTxtAux capacity ((buffer.drop offset).take length)
  else .error .malformedRecord

/-- Modelled from the spec: body of mdns_record_parse_ptr (absent from the
sources); the data slice holds a single compressed name. -/
def mdns_record_parse_ptr (buffer : List Nat) (offset length capacity : Nat) :
    Except MdnsError (List Nat × Nat) :=
  if 1 ≤ length ∧ offset + length ≤ buffer.length then
    mdns_string_extract buffer offset capacity
  else .error .malformedRecord

/-- Decoded SRV payload. -/
structure MdnsSrv where
  priority : Nat
  weight : Nat
  port : Nat
  name : List Nat
deriving DecidableEq, Repr

/-- Modelled from the spec: body of mdns_record_parse_srv (absent from the
sources); priority, weight and port precede a compressed target name. -/
def mdns_record_parse_srv (buffer : List Nat) (offset length capacity : Nat) :
    Except MdnsError MdnsSrv :=
  if 7 ≤ length ∧ offset + length ≤ buffer.length then
    match mdns_string_extract buffer (offset + 6) capacity with
    | .ok (s, _) =>
      .ok { priority := readU16 buffer offset, weight := readU16 buffer (offset + 2),
            port := readU16 buffer (offset + 4), name := s }
    | .error e => .error e
  else .error .malformedRecord

/-- Modelled from the spec: body of mdns_record_parse_a (absent from the
sources); the payload is a fixed 4-byte address. -/
def mdns_record_parse_a (buffer : List Nat) (offset length : Nat) :
    Except MdnsError (List Nat) :=
  if length = 4 ∧ offset + 4 ≤ buffer.length then
    .ok ((buffer.drop offset).take 4)
  else .error .malformedRecord

/-- Modelled from the spec: body of mdns_record_parse_aaaa (absent from
the sources); the payload is a fixed 16-byte address. -/
def mdns_record_parse_aaaa (buffer : List Nat) (offset length : Nat) :
    Except MdnsError (List Nat) :=
  if length = 16 ∧ offset + 16 ≤ buffer.length then
    .ok ((buffer.drop offset).take 16)
  else .error .malformedRecord

/-- The caller-visible mutable state of a decode call: the message buffer
(declared const in mdns.h), the in/out offset, and the scratch storage. -/
structure CodecState where
  message : List Nat
  offset : Nat
  scratch : List Nat
deriving DecidableEq, Repr

/-- State-passing form of mdns_string_extract, matching the C signature:
the offset parameter and the scratch storage are written, the message
buffer is only read. -/
def mdns_string_extract_state (st : CodecState) (capacity : Nat) :
    Option (List Nat) × CodecState :=
  match mdns_string_extract st.message st.offset capacity with
  | .ok (s, e) => (some s, { st with offset := e, scratch := s })
  | .error _ => (none, st)

/-- State-passing form of mdns_string_skip. -/
def mdns_string_skip_state (st : CodecState) : Bool × CodecState :=
  match mdns_string_skip st.message st.offset with
  | .ok e => (true, { st with offset := e })
  | .error _ => (false, st)

/-- State-passing form of mdns_string_equal over its two buffers; on a
successful comparison both offsets advance past the names. -/
def mdns_string_equal_state (stL stR : CodecState) :
    Bool × CodecState × CodecState :=
  match extractLabels stL.message stL.offset, extractLabels stR.message stR.offset with
  | .ok (la, ea), .ok (lb, eb) =>
    if la.map (List.map asciiToLower) = lb.map (List.map asciiToLower) then
      (true, { stL with offset := ea }, { stR with offset := eb })
    else (false, stL, stR)
  | _, _ => (false, stL, stR)

/-- State-passing form of mdns_record_parse_ptr. -/
def mdns_record_parse_ptr_state (st : CodecState) (offset length capacity : Nat) :
    Except MdnsError (List Nat × Nat) × CodecState :=
  match mdns_record_parse_ptr st.message offset length capacity with
  | .ok (s, e) => (.ok (s, e), { st with scratch := s })
  | .error e => (.error e, st)

/-- State-passing form of mdns_record_parse_srv. -/
def mdns_record_parse_srv_state (st : CodecState) (offset length capacity : Nat) :
    Except MdnsError MdnsSrv × CodecState :=
  match mdns_record_parse_srv st.message offset length capacity with
  | .ok r => (.ok r, { st with scratch := r.name })
  | .error e => (.error e, st)

/-- State-passing form of mdns_record_parse_a. -/
def mdns_record_parse_a_state (st : CodecState) (offset length : Nat) :
    Except MdnsError (List Nat) × CodecState :=
  (mdns_record_parse_a st.message offset length, st)

/-- State-passing form of mdns_record_parse_aaaa. -/
def mdns_record_parse_aaaa_state (st : CodecState) (offset length : Nat) :
    Except MdnsError (List Nat) × CodecState :=
  (mdns_record_parse_aaaa st.message offset length, st)

/-- State-passing form of mdns_record_parse_txt. -/
def mdns_record_parse_txt_state (st : CodecState) (offset length capacity : Nat) :
    Except MdnsError (List (List Nat × List Nat)) × CodecState :=
  (mdns_record_parse_txt st.message offset length capacity, st)

/-- The crafted buffer of the cycle-safety test: a 12-byte header followed
by a compression pointer at offset 12 targeting offset 14, which in turn
points back to offset 12. -/
def craftedCycleBuf : List Nat :=
  [0, 0, 0, 0, 0, 0, 0, 0, 0, 0, 0, 0, 192, 14, 192, 12]

/-- A buffer whose name at offset 12 takes a valid backward jump to
offset 5 first, where the chain then meets a forward pointer to offset 8:
the violation sits deeper in the chain, not at the first pointer. -/
def deepViolationBuf : List Nat :=
  [0, 0, 0, 0, 0, 192, 8, 0, 1, 97, 0, 0, 192, 5]

/-- A datagram whose header declares 3 answer records while the buffer
holds exactly one complete answer record (owner name of one label, type
PTR, class IN, time to live 30, 4 data bytes). -/
def answer3Dgram : List Nat :=
  [0, 7, 0, 0, 0, 0, 0, 3, 0, 0, 0, 0,
   1, 97, 0, 0, 12, 0, 1, 0, 0, 0, 30, 0, 4, 1, 2, 3, 4]

/-- The single complete answer entry of answer3Dgram. -/
def answer3Entry : MdnsEntry :=
  { entryType := 1, transactionId := 7, rtype := 12, rclass := 1,
    ttl := 30, dataOfs := 25, dataLen := 4 }

/-- A buffer holding the name of one label at offset 0 and a compression
pointer to it at offset 3, used to witness claim C6. -/
def ptrBackBuf : List Nat := [1, 97, 0, 192, 0]

/-- The TXT payload of the parsing test: sub-strings of the forms
key=value, bare key, and key with an empty value. -/
def txtPayload : List Nat := [3, 97, 61, 49, 1, 98, 2, 99, 61]

/-- A name accepted by mdns_string_make: every label has 1 to 63 bytes,
the encoded form fits in 255 bytes, and all bytes are ASCII. -/
def ValidName (name : List Nat) : Prop :=
  (∀ l ∈ splitOnByte 46 name, 1 ≤ l.length ∧ l.length ≤ 63) ∧
  (encodeLabels (splitOnByte 46 name)).length ≤ 255 ∧
  (∀ c ∈ name, c < 128)

instance (name : List Nat) : Decidable (ValidName name) := by
  unfold ValidName; infer_instance

theorem takeLenApp (l t : List Nat) : (l ++ t).take l.length = l := by
  induction l with
  | nil => rfl
  | cons a l ih => simp [ih]

theorem dropLenApp (l t : List Nat) : (l ++ t).drop l.length = t := by
  induction l with
  | nil => rfl
  | cons a l ih => simp [ih]

theorem splitOnByte_ne_nil (sep : Nat) (l : List Nat) : splitOnByte sep l ≠ [] := by
  induction l with
  | nil => simp [splitOnByte]
  | cons c cs ih =>
    by_cases hc : c = sep
    · simp [splitOnByte, hc]
    · simp only [splitOnByte, if_neg hc]
      cases h : splitOnByte sep cs with
      | nil => exact absurd h ih
      | cons hd tl => simp

theorem joinSep_splitOnByte (sep : Nat) (l : List Nat) :
    joinSep sep (splitOnByte sep l) = l := by
  induction l with
  | nil => rfl
  | cons c cs ih =>
    by_cases hc : c = sep
    · rw [show splitOnByte sep (c :: cs) = [] :: splitOnByte sep cs from by
        simp [splitOnByte, hc]]
      cases h : splitOnByte sep cs with
      | nil => exact absurd h (splitOnByte_ne_nil sep cs)
      | cons hd tl =>
        rw [h] at ih
        simp only [joinSep, List.nil_append]
        rw [ih, hc]
    · rw [show splitOnByte sep (c :: cs)
          = (splitOnByte sep cs).modifyHead (fun h => c :: h) from by
        simp [splitOnByte, hc]]
      cases h : splitOnByte sep cs with
      | nil => exact absurd h (splitOnByte_ne_nil sep cs)
      | cons hd tl =>
        rw [h] at ih
        simp only [List.modifyHead_cons]
        cases tl with
        | nil =>
          simp only [joinSep] at ih ⊢
          rw [ih]
        | cons t2 tl2 =>
          simp only [joinSep, List.cons_append] at ih ⊢
          rw [ih]

theorem encodeLabels_length_pos (ls : List (List Nat)) :
    1 ≤ (encodeLabels ls).length := by
  cases ls <;> simp [encodeLabels]

theorem encodeLabels_length (ls : List (List Nat)) (h : ls ≠ []) :
    (encodeLabels ls).length = (joinSep 46 ls).length + 2 := by
  induction ls with
  | nil => exact absurd rfl h
  | cons l ls ih =>
    cases ls with
    | nil => simp [encodeLabels, joinSep]
    | cons l2 ls2 =>
      have h2 := ih (by simp)
      simp only [encodeLabels, joinSep] at h2 ⊢
      simp only [List.length_cons, List.length_append] at h2 ⊢
      omega

theorem asciiToLower_dot (c : Nat) : asciiToLower c = 46 ↔ c = 46 := by
  unfold asciiToLower
  split <;> omega

theorem splitOnByte_map_lower (l : List Nat) :
    splitOnByte 46 (l.map asciiToLower) =
      (splitOnByte 46 l).map (List.map asciiToLower) := by
  induction l with
  | nil => rfl
  | cons c cs ih =>
    by_cases hc : c = 46
    · simp only [List.map_cons, splitOnByte,
        if_pos ((asciiToLower_dot c).mpr hc), if_pos hc, ih]
      simp
    · simp only [List.map_cons, splitOnByte,
        if_neg (fun hx => hc ((asciiToLower_dot c).mp hx)), if_neg hc, ih]
      cases h : splitOnByte 46 cs with
      | nil => exact absurd h (splitOnByte_ne_nil 46 cs)
      | cons hd tl => simp

theorem readEnc (ls : List (List Nat)) :
    ∀ (tail : List Nat) (fuel : Nat),
      (∀ l ∈ ls, 1 ≤ l.length ∧ l.length ≤ 63) →
      (encodeLabels ls ++ tail).length ≤ fuel →
      readLabelsAux fuel (encodeLabels ls ++ tail) =
        NameChunk.term ls (encodeLabels ls).length := by
  induction ls with
  | nil =>
    intro tail fuel hgood hfuel
    cases fuel with
    | zero => simp [encodeLabels] at hfuel
    | succ f => simp [encodeLabels, readLabelsAux]
  | cons l ls ih =>
    intro tail fuel hgood hfuel
    have h1 : 1 ≤ l.length := (hgood l (by simp)).1
    have h63 : l.length ≤ 63 := (hgood l (by simp)).2
    have hgood2 : ∀ x ∈ ls, 1 ≤ x.length ∧ x.length ≤ 63 :=
      fun x hx => hgood x (by simp [hx])
    cases fuel with
    | zero => simp [encodeLabels] at hfuel
    | succ f =>
      have hshape : encodeLabels (l :: ls) ++ tail
          = l.length :: (l ++ (encodeLabels ls ++ tail)) := by
        simp [encodeLabels]
      rw [hshape] at hfuel ⊢
      simp only [readLabelsAux]
      rw [if_neg (by omega : ¬ 192 ≤ l.length)]
      rw [if_neg (by omega : ¬ l.length = 0)]
      rw [if_pos (by simp only [List.length_append]; omega :
        l.length ≤ (l ++ (encodeLabels ls ++ tail)).length)]
      rw [takeLenApp, dropLenApp]
      have hfuel2 : (encodeLabels ls ++ tail).length ≤ f := by
        simp only [List.length_cons, List.length_append] at hfuel ⊢
        omega
      rw [ih tail f hgood2 hfuel2]
      have hlen : (encodeLabels (l :: ls)).length
          = 1 + l.length + (encodeLabels ls).length := by
        simp only [encodeLabels, List.length_cons, List.length_append]
        omega
      rw [hlen]

theorem chase_encoded (buffer : List Nat) (fuel cur : Nat)
    (ls : List (List Nat)) (tail : List Nat)
    (hgood : ∀ l ∈ ls, 1 ≤ l.length ∧ l.length ≤ 63)
    (hdrop : buffer.drop cur = encodeLabels ls ++ tail) :
    chaseLabels buffer fuel cur = .ok ls := by
  have hread : readLabelsS (buffer.drop cur)
      = NameChunk.term ls (encodeLabels ls).length := by
    rw [hdrop]
    exact readEnc ls tail (encodeLabels ls ++ tail).length hgood (le_refl _)
  cases fuel with
  | zero => simp only [chaseLabels, hread]
  | succ fl => simp only [chaseLabels, hread]

theorem extractLabels_encoded (pre tail : List Nat) (ls : List (List Nat))
    (hgood : ∀ l ∈ ls, 1 ≤ l.length ∧ l.length ≤ 63) :
    extractLabels (pre ++ (encodeLabels ls ++ tail)) pre.length =
      .ok (ls, pre.length + (encodeLabels ls).length) := by
  unfold extractLabels
  rw [dropLenApp]
  have hread : readLabelsS (encodeLabels ls ++ tail)
      = NameChunk.term ls (encodeLabels ls).length :=
    readEnc ls tail (encodeLabels ls ++ tail).length hgood (le_refl _)
  rw [hread]

theorem mdns_string_extract_encoded (pre tail : List Nat)
    (ls : List (List Nat)) (cap : Nat)
    (hgood : ∀ l ∈ ls, 1 ≤ l.length ∧ l.length ≤ 63)
    (hcap : (joinSep 46 ls).length ≤ cap) :
    mdns_string_extract (pre ++ (encodeLabels ls ++ tail)) pre.length cap =
      .ok (joinSep 46 ls, pre.length + (encodeLabels ls).length) := by
  unfold mdns_string_extract
  rw [extractLabels_encoded pre tail ls hgood]
  simp [hcap]

theorem make_ok_inv (cap : Nat) (name enc : List Nat)
    (h : mdns_string_make cap name = .ok enc) :
    enc = encodeLabels (splitOnByte 46 name) ∧
    (∀ l ∈ splitOnByte 46 name, 1 ≤ l.length ∧ l.length ≤ 63) ∧
    (encodeLabels (splitOnByte 46 name)).length ≤ 255 ∧
    (encodeLabels (splitOnByte 46 name)).length ≤ cap := by
  simp only [mdns_string_make] at h
  split at h
  · split at h
    · rename_i hv hc
      exact ⟨(Except.ok.inj h).symm, hv.1, hv.2, hc⟩
    · exact absurd h (by simp)
  · exact absurd h (by simp)

theorem readLabelsAux_consumed_le (fuel : Nat) :
    ∀ (s : List Nat) (ls : List (List Nat)) (n t : Nat),
      (readLabelsAux fuel s = NameChunk.term ls n ∨
        readLabelsAux fuel s = NameChunk.ptr ls n t) →
      n ≤ s.length := by
  induction fuel with
  | zero =>
    intro s ls n t h
    cases s with
    | nil => simp [readLabelsAux] at h
    | cons b rest => simp [readLabelsAux] at h
  | succ f ih =>
    intro s ls n t h
    cases s with
    | nil => simp [readLabelsAux] at h
    | cons b rest =>
      simp only [readLabelsAux] at h
      by_cases h192 : 192 ≤ b
      · rw [if_pos h192] at h
        cases rest with
        | nil => simp at h
        | cons b2 r2 =>
          rcases h with h | h
          · simp at h
          · have := (NameChunk.ptr.inj h).2.1
            simp [← this]
      · rw [if_neg h192] at h
        by_cases h0 : b = 0
        · rw [if_pos h0] at h
          rcases h with h | h
          · have := (NameChunk.term.inj h).2
            simp [← this]
          · simp at h
        · rw [if_neg h0] at h
          by_cases hle : b ≤ rest.length
          · rw [if_pos hle] at h
            cases hr : readLabelsAux f (rest.drop b) with
            | term ls2 n2 =>
              rw [hr] at h
              rcases h with h | h
              · have hn := (NameChunk.term.inj h).2
                have := ih (rest.drop b) ls2 n2 0 (Or.inl hr)
                simp only [List.length_drop] at this
                simp only [List.length_cons]
                omega
              · simp at h
            | ptr ls2 n2 t2 =>
              rw [hr] at h
              rcases h with h | h
              · simp at h
              · have hn := (NameChunk.ptr.inj h).2.1
                have := ih (rest.drop b) ls2 n2 t2 (Or.inr hr)
                simp only [List.length_drop] at this
                simp only [List.length_cons]
                omega
            | bad => rw [hr] at h; simp at h
          · rw [if_neg hle] at h
            simp at h

theorem read_firstStop (fuel : Nat) :
    ∀ (s : List Nat) (ls : List (List Nat)) (n t : Nat),
      (readLabelsAux fuel s = NameChunk.term ls n ∨
        readLabelsAux fuel s = NameChunk.ptr ls n t) →
      firstStopAux fuel s = some n := by
  induction fuel with
  | zero =>
    intro s ls n t h
    cases s with
    | nil => simp [readLabelsAux] at h
    | cons b rest => simp [readLabelsAux] at h
  | succ f ih =>
    intro s ls n t h
    cases s with
    | nil => simp [readLabelsAux] at h
    | cons b rest =>
      simp only [readLabelsAux] at h
      simp only [firstStopAux]
      by_cases h192 : 192 ≤ b
      · rw [if_pos h192] at h
        rw [if_pos h192]
        cases rest with
        | nil => simp at h
        | cons b2 r2 =>
          rcases h with h | h
          · simp at h
          · rw [← (NameChunk.ptr.inj h).2.1]
      · rw [if_neg h192] at h
        rw [if_neg h192]
        by_cases h0 : b = 0
        · rw [if_pos h0] at h
          rw [if_pos h0]
          rcases h with h | h
          · rw [← (NameChunk.term.inj h).2]
          · simp at h
        · rw [if_neg h0] at h
          rw [if_neg h0]
          by_cases hle : b ≤ rest.length
          · rw [if_pos hle] at h
            rw [if_pos hle]
            cases hr : readLabelsAux f (rest.drop b) with
            | term ls2 n2 =>
              rw [hr] at h
              rcases h with h | h
              · rw [ih (rest.drop b) ls2 n2 0 (Or.inl hr)]
                rw [← (NameChunk.term.inj h).2]
              · simp at h
            | ptr ls2 n2 t2 =>
              rw [hr] at h
              rcases h with h | h
              · simp at h
              · rw [ih (rest.drop b) ls2 n2 t2 (Or.inr hr)]
                rw [← (NameChunk.ptr.inj h).2.1]
            | bad => rw [hr] at h; simp at h
          · rw [if_neg hle] at h
            simp at h

theorem chase_err (buffer : List Nat) (fuel : Nat) :
    ∀ (cur : Nat) (e : MdnsError),
      chaseLabels buffer fuel cur = .error e → e = .malformedName := by
  induction fuel with
  | zero =>
    intro cur e h
    simp only [chaseLabels] at h
    split at h
    · exact (Except.error.inj h).symm
    · exact absurd h (by simp)
    · exact (Except.error.inj h).symm
  | succ fl ih =>
    intro cur e h
    simp only [chaseLabels] at h
    split at h
    · exact (Except.error.inj h).symm
    · exact absurd h (by simp)
    · rename_i ls n t heq
      split at h
      · cases hc : chaseLabels buffer fl t with
        | ok more => rw [hc] at h; exact absurd h (by simp)
        | error e2 =>
          rw [hc] at h
          exact (Except.error.inj h) ▸ ih t e2 hc
      · exact (Except.error.inj h).symm

theorem chaseViolates_err (buffer : List Nat) :
    ∀ (fuel cur : Nat),
      chaseViolates buffer fuel cur = true →
      chaseLabels buffer fuel cur = .error .malformedName := by
  intro fuel
  induction fuel with
  | zero =>
    intro cur hv
    simp only [chaseViolates] at hv
    simp only [chaseLabels]
    cases hr : readLabelsS (buffer.drop cur) with
    | bad => rfl
    | term ls n => rw [hr] at hv; simp at hv
    | ptr ls n t => rfl
  | succ fl ih =>
    intro cur hv
    simp only [chaseViolates] at hv
    simp only [chaseLabels]
    cases hr : readLabelsS (buffer.drop cur) with
    | bad => rfl
    | term ls n => rw [hr] at hv; simp at hv
    | ptr ls n t =>
      rw [hr] at hv
      dsimp only at hv ⊢
      by_cases hb : t + 2 < cur + n
      · rw [if_pos hb] at hv ⊢
        rw [ih t hv]
      · rw [if_neg hb]

theorem extractLabels_err (buffer : List Nat) (offset : Nat) (e : MdnsError)
    (h : extractLabels buffer offset = .error e) : e = .malformedName := by
  unfold extractLabels at h
  split at h
  · exact (Except.error.inj h).symm
  · exact absurd h (by simp)
  · rename_i ls n t heq
    split at h
    · cases hc : chaseLabels buffer buffer.length t with
      | ok more => rw [hc] at h; exact absurd h (by simp)
      | error e2 =>
        rw [hc] at h
        exact (Except.error.inj h) ▸ chase_err buffer buffer.length t e2 hc
    · exact (Except.error.inj h).symm

theorem extractLabels_le (buffer : List Nat) (offset : Nat)
    (ls : List (List Nat)) (e : Nat)
    (h : extractLabels buffer offset = .ok (ls, e)) : e ≤ buffer.length := by
  by_cases ho : offset ≤ buffer.length
  · unfold extractLabels at h
    split at h
    · exact absurd h (by simp)
    · rename_i ls2 n heq
      have he : e = offset + n := by
        have h2 := Except.ok.inj h
        simp only [Prod.mk.injEq] at h2
        omega
      have hn := readLabelsAux_consumed_le (buffer.drop offset).length
        (buffer.drop offset) ls2 n 0 (Or.inl heq)
      simp only [List.length_drop] at hn
      omega
    · rename_i ls2 n t heq
      split at h
      · cases hc : chaseLabels buffer buffer.length t with
        | ok more =>
          rw [hc] at h
          have he : e = offset + n := by
            have h2 := Except.ok.inj h
            simp only [Prod.mk.injEq] at h2
            omega
          have hn := readLabelsAux_consumed_le (buffer.drop offset).length
            (buffer.drop offset) ls2 n t (Or.inr heq)
          simp only [List.length_drop] at hn
          omega
        | error e2 => rw [hc] at h; exact absurd h (by simp)
      · exact absurd h (by simp)
  · exfalso
    have hnil : buffer.drop offset = [] := by
      apply List.drop_eq_nil_of_le
      omega
    unfold extractLabels at h
    rw [hnil] at h
    simp [readLabelsS, readLabelsAux] at h

theorem scanSectionAcc_eq (buffer : List Nat) (cb : MdnsEntry → Nat)
    (tid etype : Nat) :
    ∀ (count ofs : Nat),
      scanSectionAcc buffer cb tid etype count ofs =
        (((scanSection buffer tid etype count ofs).1.map cb).sum,
          (scanSection buffer tid etype count ofs).2) := by
  intro count
  induction count with
  | zero => intro ofs; rfl
  | succ n ih =>
    intro ofs
    simp only [scanSectionAcc, scanSection]
    cases h : scanEntry buffer tid etype ofs with
    | none => simp
    | some p =>
      cases p with
      | mk e o2 => simp [ih o2]

theorem scanEntry_tid (buffer : List Nat) (tid etype ofs : Nat)
    (e : MdnsEntry) (o2 : Nat)
    (h : scanEntry buffer tid etype ofs = some (e, o2)) :
    e.transactionId = tid := by
  unfold scanEntry at h
  split at h
  · exact absurd h (by simp)
  · split at h
    · split at h
      · simp only [Option.some.injEq, Prod.mk.injEq] at h
        rw [← h.1]
      · exact absurd h (by simp)
    · split at h
      · split at h
        · simp only [Option.some.injEq, Prod.mk.injEq] at h
          rw [← h.1]
        · exact absurd h (by simp)
      · exact absurd h (by simp)

theorem scanSection_tid (buffer : List Nat) (tid etype : Nat) :
    ∀ (count ofs : Nat) (e : MdnsEntry),
      e ∈ (scanSection buffer tid etype count ofs).1 →
      e.transactionId = tid := by
  intro count
  induction count with
  | zero => intro ofs e he; simp [scanSection] at he
  | succ n ih =>
    intro ofs e he
    simp only [scanSection] at he
    cases h : scanEntry buffer tid etype ofs with
    | none => rw [h] at he; simp at he
    | some p =>
      cases p with
      | mk e2 o2 =>
        rw [h] at he
        simp only [List.mem_cons] at he
        rcases he with he | he
        · rw [he]; exact scanEntry_tid buffer tid etype ofs e2 o2 h
        · exact ih o2 e he

theorem mdnsScanAcc_eq (buffer : List Nat) (cb : MdnsEntry → Nat) :
    mdnsScanAcc buffer cb = ((deliveredEntries buffer).map cb).sum := by
  unfold mdnsScanAcc deliveredEntries
  by_cases h : buffer.length < 12
  · simp [h]
  · rw [if_neg h, if_neg h]
    rw [scanSectionAcc_eq]
    cases h1 : scanSection buffer (readU16 buffer 0) 0 (readU16 buffer 4) 12 with
    | mk q1 r1 =>
      cases r1 with
      | none => simp
      | some o1 =>
        dsimp only
        rw [scanSectionAcc_eq]
        cases h2 : scanSection buffer (readU16 buffer 0) 1 (readU16 buffer 6) o1 with
        | mk a1 r2 =>
          cases r2 with
          | none => simp [List.sum_append]
          | some o2 =>
            dsimp only
            rw [scanSectionAcc_eq]
            cases h3 : scanSection buffer (readU16 buffer 0) 2 (readU16 buffer 8) o2 with
            | mk u1 r3 =>
              cases r3 with
              | none => simp [List.sum_append]; omega
              | some o3 =>
                dsimp only
                rw [scanSectionAcc_eq]
                cases h4 : scanSection buffer (readU16 buffer 0) 3 (readU16 buffer 10) o3 with
                | mk d1 r4 =>
                  simp [List.sum_append]
                  omega

theorem deliveredEntries_tid (buffer : List Nat) (e : MdnsEntry)
    (h : e ∈ deliveredEntries buffer) :
    e.transactionId = readU16 buffer 0 := by
  unfold deliveredEntries at h
  by_cases h12 : buffer.length < 12
  · rw [if_pos h12] at h; simp at h
  · rw [if_neg h12] at h
    cases h1 : scanSection buffer (readU16 buffer 0) 0 (readU16 buffer 4) 12 with
    | mk q1 r1 =>
      rw [h1] at h
      have hq : ∀ x, x ∈ q1 → MdnsEntry.transactionId x = readU16 buffer 0 :=
        fun x hx => scanSection_tid buffer (readU16 buffer 0) 0
          (readU16 buffer 4) 12 x (by rw [h1]; exact hx)
      cases r1 with
      | none => exact hq e h
      | some o1 =>
        dsimp only at h
        cases h2 : scanSection buffer (readU16 buffer 0) 1 (readU16 buffer 6) o1 with
        | mk a1 r2 =>
          rw [h2] at h
          have ha : ∀ x, x ∈ a1 → MdnsEntry.transactionId x = readU16 buffer 0 :=
            fun x hx => scanSection_tid buffer (readU16 buffer 0) 1
              (readU16 buffer 6) o1 x (by rw [h2]; exact hx)
          cases r2 with
          | none =>
            rcases List.mem_append.mp h with hx | hx
            · exact hq e hx
            · exact ha e hx
          | some o2 =>
            dsimp only at h
            cases h3 : scanSection buffer (readU16 buffer 0) 2 (readU16 buffer 8) o2 with
            | mk u1 r3 =>
              rw [h3] at h
              have hu : ∀ x, x ∈ u1 → MdnsEntry.transactionId x = readU16 buffer 0 :=
                fun x hx => scanSection_tid buffer (readU16 buffer 0) 2
                  (readU16 buffer 8) o2 x (by rw [h3]; exact hx)
              cases r3 with
              | none =>
                rcases List.mem_append.mp h with hx | hx
                · rcases List.mem_append.mp hx with hy | hy
                  · exact hq e hy
                  · exact ha e hy
                · exact hu e hx
              | some o3 =>
                dsimp only at h
                cases h4 : scanSection buffer (readU16 buffer 0) 3 (readU16 buffer 10) o3 with
                | mk d1 r4 =>
                  rw [h4] at h
                  dsimp only at h
                  have hd : ∀ x, x ∈ d1 → MdnsEntry.transactionId x = readU16 buffer 0 :=
                    fun x hx => scanSection_tid buffer (readU16 buffer 0) 3
                      (readU16 buffer 10) o3 x (by rw [h4]; exact hx)
                  rcases List.mem_append.mp h with hx | hx
                  · rcases List.mem_append.mp hx with hy | hy
                    · rcases List.mem_append.mp hy with hz | hz
                      · exact hq e hz
                      · exact ha e hz
                    · exact hu e hy
                  · exact hd e hx

/-- C1: whenever the pointer chain of the name at an offset meets, at its
origin or anywhere later along the followed jumps, a compression pointer
that does not point strictly backward, both mdns_string_extract and
mdns_string_skip fail with MalformedName (witnessed both on the crafted
buffer whose pointer at offset 12 targets offset 14 and points back to
offset 12, and on a buffer whose violation sits behind a valid backward
jump); every failure of either function is MalformedName; and both
functions terminate with a result on every buffer, the pointer walk being
capped by the defensive follow bound. -/
theorem c1_cycle_safety :
    (∀ (buffer : List Nat) (offset capacity : Nat),
      extractViolates buffer offset = true →
      mdns_string_extract buffer offset capacity = .error .malformedName ∧
      mdns_string_skip buffer offset = .error .malformedName) ∧
    (∀ (buffer : List Nat) (offset capacity : Nat) (e : MdnsError),
      mdns_string_extract buffer offset capacity = .error e →
      e = .malformedName) ∧
    (∀ (buffer : List Nat) (offset : Nat) (e : MdnsError),
      mdns_string_skip buffer offset = .error e → e = .malformedName) ∧
    (∀ (buffer : List Nat) (offset capacity : Nat),
      (∃ r, mdns_string_extract buffer offset capacity = r) ∧
      (∃ r, mdns_string_skip buffer offset = r)) := by
  refine ⟨?_, ?_, ?_, fun buffer offset capacity => ⟨⟨_, rfl⟩, ⟨_, rfl⟩⟩⟩
  · intro buffer offset capacity hv
    have hx : extractLabels buffer offset = .error .malformedName := by
      simp only [extractViolates] at hv
      unfold extractLabels
      cases hr : readLabelsS (buffer.drop offset) with
      | bad => rfl
      | term ls n => rw [hr] at hv; simp at hv
      | ptr ls n t =>
        rw [hr] at hv
        dsimp only at hv ⊢
        by_cases hb : t + 2 < offset + n
        · rw [if_pos hb] at hv ⊢
          rw [chaseViolates_err buffer buffer.length t hv]
        · rw [if_neg hb]
    constructor
    · unfold mdns_string_extract; rw [hx]
    · unfold mdns_string_skip; rw [hx]
  · intro buffer offset capacity e h
    cases hx : extractLabels buffer offset with
    | error e2 =>
      unfold mdns_string_extract at h
      rw [hx] at h
      exact (Except.error.inj h) ▸ extractLabels_err buffer offset e2 hx
    | ok p =>
      cases p with
      | mk ls2 e2 =>
        unfold mdns_string_extract at h
        rw [hx] at h
        dsimp only at h
        split at h <;> exact absurd h (by simp)
  · intro buffer offset e h
    cases hx : extractLabels buffer offset with
    | error e2 =>
      unfold mdns_string_skip at h
      rw [hx] at h
      exact (Except.error.inj h) ▸ extractLabels_err buffer offset e2 hx
    | ok p =>
      cases p with
      | mk ls2 e2 =>
        unfold mdns_string_skip at h
        rw [hx] at h
        exact absurd h (by simp)

/-- Witness for C1: on the crafted buffer whose first pointer at offset
12 targets offset 14 (a forward pointer, detected immediately), and on
the buffer whose name at offset 12 first takes a valid backward jump to
offset 5 and only then meets a forward pointer to offset 8, extraction
and skipping fail with MalformedName. -/
theorem c1_cycle_safety_witness :
    (mdns_string_extract craftedCycleBuf 12 255 = .error .malformedName ∧
      mdns_string_skip craftedCycleBuf 12 = .error .malformedName) ∧
    (mdns_string_extract deepViolationBuf 12 255 = .error .malformedName ∧
      mdns_string_skip deepViolationBuf 12 = .error .malformedName) :=
  ⟨c1_cycle_safety.1 craftedCycleBuf 12 255 (by decide),
   c1_cycle_safety.1 deepViolationBuf 12 255 (by decide)⟩

/-- C6: whenever mdns_string_extract succeeds, the offset it returns is
the position just after the first compression pointer or zero terminator
met in the original stream at the origin of the name (as computed by the
independent walk firstStopEnd, which follows no compression jump), and
mdns_string_skip returns the same offset. -/
theorem c6_offset_after_first_stop :
    ∀ (buffer : List Nat) (offset capacity : Nat) (s : List Nat) (e : Nat),
      mdns_string_extract buffer offset capacity = .ok (s, e) →
      firstStopEnd buffer offset = some e ∧
      mdns_string_skip buffer offset = .ok e := by
  intro buffer offset capacity s e h
  have hex : ∃ ls, extractLabels buffer offset = .ok (ls, e) := by
    unfold mdns_string_extract at h
    cases hx : extractLabels buffer offset with
    | error e2 => rw [hx] at h; exact absurd h (by simp)
    | ok p =>
      cases p with
      | mk ls2 e2 =>
        rw [hx] at h
        dsimp only at h
        split at h
        · have h2 := Except.ok.inj h
          simp only [Prod.mk.injEq] at h2
          exact ⟨ls2, by rw [h2.2]⟩
        · have h2 := Except.ok.inj h
          simp only [Prod.mk.injEq] at h2
          exact ⟨ls2, by rw [h2.2]⟩
  obtain ⟨ls, hls⟩ := hex
  constructor
  · unfold extractLabels at hls
    unfold firstStopEnd
    split at hls
    · exact absurd hls (by simp)
    · rename_i ls2 n heq
      have h2 := Except.ok.inj hls
      simp only [Prod.mk.injEq] at h2
      rw [read_firstStop (buffer.drop offset).length (buffer.drop offset)
        ls2 n 0 (Or.inl heq)]
      dsimp only
      rw [h2.2]
    · rename_i ls2 n t heq
      split at hls
      · cases hc : chaseLabels buffer buffer.length t with
        | ok more =>
          rw [hc] at hls
          have h2 := Except.ok.inj hls
          simp only [Prod.mk.injEq] at h2
          rw [read_firstStop (buffer.drop offset).length (buffer.drop offset)
            ls2 n t (Or.inr heq)]
          dsimp only
          rw [h2.2]
        | error e2 => rw [hc] at hls; exact absurd hls (by simp)
      · exact absurd hls (by simp)
  · unfold mdns_string_skip
    rw [hls]

/-- Witness for C6: in the buffer holding a one-label name at offset 0 and
a backward pointer to it at offset 3, extracting at offset 3 succeeds and
returns offset 5, just after the 2-byte pointer at the origin, not a
position reached by following the jump to offset 0. -/
theorem c6_offset_witness :
    firstStopEnd ptrBackBuf 3 = some 5 ∧
    mdns_string_skip ptrBackBuf 3 = .ok 5 :=
  c6_offset_after_first_stop ptrBackBuf 3 255 [97] 5 (by rfl)

/-- C9: the sentinel MDNS_INVALID_POS, the value of (size_t)(-1), differs
from every valid offset of a buffer whose size is below the sentinel (any
real buffer), and the decoders are bounds-checked: on every buffer the
name decoders return either an explicit error or a success whose returned
offset stays within the buffer size, never an unchecked access. -/
theorem c9_sentinel_and_bounds :
    (∀ size offset : Nat, size < MDNS_INVALID_POS → offset ≤ size →
      offset ≠ MDNS_INVALID_POS) ∧
    (∀ (buffer : List Nat) (offset capacity : Nat),
      (∃ e, mdns_string_extract buffer offset capacity = .error e) ∨
      (∃ s n, mdns_string_extract buffer offset capacity = .ok (s, n) ∧
        n ≤ buffer.length)) ∧
    (∀ (buffer : List Nat) (offset : Nat),
      (∃ e, mdns_string_skip buffer offset = .error e) ∨
      (∃ n, mdns_string_skip buffer offset = .ok n ∧ n ≤ buffer.length)) := by
  refine ⟨fun size offset h1 h2 => by omega, ?_, ?_⟩
  · intro buffer offset capacity
    cases hx : extractLabels buffer offset with
    | error e =>
      left
      exact ⟨e, by unfold mdns_string_extract; rw [hx]⟩
    | ok p =>
      cases p with
      | mk ls e =>
        right
        have hle := extractLabels_le buffer offset ls e hx
        by_cases hcap : (joinSep 46 ls).length ≤ capacity
        · refine ⟨joinSep 46 ls, e, ?_, hle⟩
          unfold mdns_string_extract
          rw [hx]
          dsimp only
          rw [if_pos hcap]
        · refine ⟨[], e, ?_, hle⟩
          unfold mdns_string_extract
          rw [hx]
          dsimp only
          rw [if_neg hcap]
  · intro buffer offset
    cases hx : extractLabels buffer offset with
    | error e =>
      left
      exact ⟨e, by unfold mdns_string_skip; rw [hx]⟩
    | ok p =>
      cases p with
      | mk ls e =>
        right
        exact ⟨e, by unfold mdns_string_skip; rw [hx],
          extractLabels_le buffer offset ls e hx⟩

/-- Witness for C9: offset 3 of a buffer of size 10 is distinct from the
sentinel. -/
theorem c9_sentinel_witness : (3 : Nat) ≠ MDNS_INVALID_POS :=
  c9_sentinel_and_bounds.1 10 3 (by decide) (by decide)

/-- C10: every decoding operation, in its state-passing form over the
caller-visible state of the C signatures, returns the message buffer it
reads from unchanged; only the offset parameter and the caller scratch
storage are written. -/
theorem c10_decoders_preserve_buffer :
    ∀ (st stR : CodecState) (capacity offset length : Nat),
      ((mdns_string_extract_state st capacity).2).message = st.message ∧
      ((mdns_string_skip_state st).2).message = st.message ∧
      ((mdns_string_equal_state st stR).2.1).message = st.message ∧
      ((mdns_string_equal_state st stR).2.2).message = stR.message ∧
      ((mdns_record_parse_ptr_state st offset length capacity).2).message
        = st.message ∧
      ((mdns_record_parse_srv_state st offset length capacity).2).message
        = st.message ∧
      ((mdns_record_parse_a_state st offset length).2).message = st.message ∧
      ((mdns_record_parse_aaaa_state st offset length).2).message = st.message ∧
      ((mdns_record_parse_txt_state st offset length capacity).2).message
        = st.message := by
  intro st stR capacity offset length
  have hEq : ((mdns_string_equal_state st stR).2.1).message = st.message ∧
      ((mdns_string_equal_state st stR).2.2).message = stR.message := by
    unfold mdns_string_equal_state
    cases hx : extractLabels st.message st.offset with
    | error e =>
      cases hy : extractLabels stR.message stR.offset with
      | error e2 => exact ⟨rfl, rfl⟩
      | ok q => cases q with | mk lb eb => exact ⟨rfl, rfl⟩
    | ok p =>
      cases p with
      | mk la ea =>
        cases hy : extractLabels stR.message stR.offset with
        | error e2 => exact ⟨rfl, rfl⟩
        | ok q =>
          cases q with
          | mk lb eb =>
            constructor
            · dsimp only
              split <;> rfl
            · dsimp only
              split <;> rfl
  refine ⟨?_, ?_, hEq.1, hEq.2, ?_, ?_, rfl, rfl, rfl⟩
  · unfold mdns_string_extract_state
    cases hx : mdns_string_extract st.message st.offset capacity with
    | ok p => cases p with | mk s e => rfl
    | error e => rfl
  · unfold mdns_string_skip_state
    cases hx : mdns_string_skip st.message st.offset with
    | ok e => rfl
    | error e => rfl
  · unfold mdns_record_parse_ptr_state
    cases hx : mdns_record_parse_ptr st.message offset length capacity with
    | ok p => cases p with | mk s e => rfl
    | error e => rfl
  · unfold mdns_record_parse_srv_state
    cases hx : mdns_record_parse_srv st.message offset length capacity with
    | ok r => rfl
    | error e => rfl

/-- C2: for every valid name, decoding the output of mdns_string_make with
mdns_string_extract yields the original name with case preserved, and
mdns_string_equal on two encodings of the name differing only in letter
case returns true. -/
theorem c2_roundtrip_and_case :
    ∀ (name name2 : List Nat) (cap : Nat),
      ValidName name → ValidName name2 →
      name2.map asciiToLower = name.map asciiToLower →
      255 ≤ cap →
      ∃ enc enc2,
        mdns_string_make cap name = .ok enc ∧
        mdns_string_make cap name2 = .ok enc2 ∧
        mdns_string_extract enc 0 255 = .ok (name, enc.length) ∧
        mdns_string_equal enc 0 enc2 0 = true := by
  intro name name2 cap hv hv2 hlow hcap
  obtain ⟨hlab, hlen, hascii⟩ := hv
  obtain ⟨hlab2, hlen2, hascii2⟩ := hv2
  have hmk : mdns_string_make cap name
      = .ok (encodeLabels (splitOnByte 46 name)) := by
    simp only [mdns_string_make]
    rw [if_pos ⟨hlab, hlen⟩, if_pos (le_trans hlen hcap)]
  have hmk2 : mdns_string_make cap name2
      = .ok (encodeLabels (splitOnByte 46 name2)) := by
    simp only [mdns_string_make]
    rw [if_pos ⟨hlab2, hlen2⟩, if_pos (le_trans hlen2 hcap)]
  refine ⟨_, _, hmk, hmk2, ?_, ?_⟩
  · have hjoin : joinSep 46 (splitOnByte 46 name) = name :=
      joinSep_splitOnByte 46 name
    have hjlen : (joinSep 46 (splitOnByte 46 name)).length ≤ 255 := by
      have := encodeLabels_length (splitOnByte 46 name) (splitOnByte_ne_nil 46 name)
      omega
    have hx := mdns_string_extract_encoded [] [] (splitOnByte 46 name) 255 hlab hjlen
    simp only [List.nil_append, List.append_nil, List.length_nil,
      Nat.zero_add] at hx
    rw [hjoin] at hx
    exact hx
  · have hsplit : (splitOnByte 46 name).map (List.map asciiToLower)
        = (splitOnByte 46 name2).map (List.map asciiToLower) := by
      rw [← splitOnByte_map_lower, ← splitOnByte_map_lower, hlow]
    have hxl := extractLabels_encoded [] [] (splitOnByte 46 name) hlab
    have hxl2 := extractLabels_encoded [] [] (splitOnByte 46 name2) hlab2
    simp only [List.nil_append, List.append_nil, List.length_nil,
      Nat.zero_add] at hxl hxl2
    unfold mdns_string_equal
    rw [hxl, hxl2]
    dsimp only
    simp only [decide_eq_true_eq]
    exact hsplit

/-- Witness for C2 at the names a.B and A.b, which differ only in letter
case. -/
theorem c2_roundtrip_witness :
    ∃ enc enc2,
      mdns_string_make 255 [97, 46, 66] = .ok enc ∧
      mdns_string_make 255 [65, 46, 98] = .ok enc2 ∧
      mdns_string_extract enc 0 255 = .ok ([97, 46, 66], enc.length) ∧
      mdns_string_equal enc 0 enc2 0 = true :=
  c2_roundtrip_and_case [97, 46, 66] [65, 46, 98] 255 (by decide) (by decide)
    (by decide) (by decide)

/-- C5: appending to any 12-byte header a valid name encoded by
mdns_string_make and then the 2-byte pointer to offset 12 emitted by
mdns_string_make_ref yields a message in which the second name occurrence
is exactly 2 bytes, and extracting either occurrence returns the same
decoded name. -/
theorem c5_compression :
    ∀ (hdr name enc ptrB : List Nat),
      hdr.length = 12 → ValidName name →
      mdns_string_make 300 name = .ok enc →
      mdns_string_make_ref 300 12 = .ok ptrB →
      ptrB.length = 2 ∧
      mdns_string_extract (hdr ++ (enc ++ ptrB)) 12 255
        = .ok (name, 12 + enc.length) ∧
      mdns_string_extract (hdr ++ (enc ++ ptrB)) (12 + enc.length) 255
        = .ok (name, 12 + enc.length + 2) := by
  intro hdr name enc ptrB hhdr hv hmk href
  obtain ⟨henc, hlab, h255, _⟩ := make_ok_inv 300 name enc hmk
  have hptr : ptrB = [192, 12] := by
    have h0 : mdns_string_make_ref 300 12 = .ok [192, 12] := rfl
    rw [h0] at href
    exact (Except.ok.inj href).symm
  subst henc
  subst hptr
  have hjoin : joinSep 46 (splitOnByte 46 name) = name :=
    joinSep_splitOnByte 46 name
  have hjlen : (joinSep 46 (splitOnByte 46 name)).length ≤ 255 := by
    have := encodeLabels_length (splitOnByte 46 name) (splitOnByte_ne_nil 46 name)
    omega
  refine ⟨rfl, ?_, ?_⟩
  · have hx := mdns_string_extract_encoded hdr [192, 12]
      (splitOnByte 46 name) 255 hlab hjlen
    rw [hhdr, hjoin] at hx
    exact hx
  · have hassoc : hdr ++ (encodeLabels (splitOnByte 46 name) ++ [192, 12])
        = (hdr ++ encodeLabels (splitOnByte 46 name)) ++ [192, 12] :=
      (List.append_assoc hdr (encodeLabels (splitOnByte 46 name)) [192, 12]).symm
    rw [hassoc]
    have hdrop : ((hdr ++ encodeLabels (splitOnByte 46 name)) ++ [192, 12]).drop
        (12 + (encodeLabels (splitOnByte 46 name)).length) = [192, 12] := by
      have h2 : (hdr ++ encodeLabels (splitOnByte 46 name)).length
          = 12 + (encodeLabels (splitOnByte 46 name)).length := by
        simp [hhdr]
      rw [← h2, dropLenApp]
    unfold mdns_string_extract extractLabels
    rw [hdrop]
    have hread : readLabelsS [192, 12] = NameChunk.ptr [] 2 12 := rfl
    rw [hread]
    dsimp only
    have hpos : 1 ≤ (encodeLabels (splitOnByte 46 name)).length :=
      encodeLabels_length_pos (splitOnByte 46 name)
    rw [if_pos (by omega :
      12 + 2 < 12 + (encodeLabels (splitOnByte 46 name)).length + 2)]
    have hchase : chaseLabels ((hdr ++ encodeLabels (splitOnByte 46 name)) ++ [192, 12])
        ((hdr ++ encodeLabels (splitOnByte 46 name)) ++ [192, 12]).length 12
        = .ok (splitOnByte 46 name) := by
      apply chase_encoded _ _ _ _ [192, 12] hlab
      rw [List.append_assoc, ← hhdr, dropLenApp]
    rw [hchase]
    dsimp only
    simp only [List.nil_append]
    rw [if_pos hjlen, hjoin]

/-- Witness for C5: the name a.b behind a zero header; the second
occurrence is the 2-byte pointer 192 12 and both occurrences decode to
a.b. -/
theorem c5_compression_witness :
    mdns_string_extract
      ([0, 0, 0, 0, 0, 0, 0, 0, 0, 0, 0, 0] ++ ([1, 97, 1, 98, 0] ++ [192, 12]))
      12 255 = .ok ([97, 46, 98], 17) ∧
    mdns_string_extract
      ([0, 0, 0, 0, 0, 0, 0, 0, 0, 0, 0, 0] ++ ([1, 97, 1, 98, 0] ++ [192, 12]))
      17 255 = .ok ([97, 46, 98], 19) :=
  ⟨(c5_compression [0, 0, 0, 0, 0, 0, 0, 0, 0, 0, 0, 0] [97, 46, 98]
      [1, 97, 1, 98, 0] [192, 12] (by rfl) (by decide) (by rfl) (by rfl)).2.1,
   (c5_compression [0, 0, 0, 0, 0, 0, 0, 0, 0, 0, 0, 0] [97, 46, 98]
      [1, 97, 1, 98, 0] [192, 12] (by rfl) (by decide) (by rfl) (by rfl)).2.2⟩

/-- C4: mdns_record_parse_txt splits every length-prefixed sub-string on
its first equals sign, with an empty value when none is present; the
payload holding a=1, b and c= parses to exactly the pairs (a,1), (b,empty)
and (c,empty); and a sub-string whose declared length exceeds the
remaining record bytes fails with MalformedRecord. -/
theorem c4_txt_parsing :
    (∀ s : List Nat, ¬ 61 ∈ s → splitFirst 61 s = (s, [])) ∧
    (∀ cap : Nat, 3 ≤ cap →
      mdns_record_parse_txt txtPayload 0 9 cap =
        .ok [([97], [49]), ([98], []), ([99], [])] ∧
      mdns_record_parse_txt [5, 97] 0 2 cap = .error .malformedRecord) := by
  constructor
  · intro s hs
    induction s with
    | nil => rfl
    | cons c cs ih =>
      have hc : c ≠ 61 := fun h => hs (by simp [h])
      have hcs : ¬ 61 ∈ cs := fun h => hs (by simp [h])
      simp only [splitFirst, if_neg hc]
      rw [ih hcs]
  · intro cap hcap
    obtain ⟨c, rfl⟩ : ∃ c, cap = c + 3 := ⟨cap - 3, by omega⟩
    constructor
    · simp [mdns_record_parse_txt, txtPayload, parseTxtAux, splitFirst]
    · simp [mdns_record_parse_txt, parseTxtAux]

/-- Witness for C4: the bare sub-string b has no equals sign and yields an
empty value; the crafted payload parses to the three expected pairs and
the over-declared sub-string fails. -/
theorem c4_txt_witness :
    splitFirst 61 [98] = ([98], []) ∧
    mdns_record_parse_txt txtPayload 0 9 3 =
      .ok [([97], [49]), ([98], []), ([99], [])] ∧
    mdns_record_parse_txt [5, 97] 0 2 3 = .error .malformedRecord :=
  ⟨c4_txt_parsing.1 [98] (by decide),
   (c4_txt_parsing.2 3 (by decide)).1,
   (c4_txt_parsing.2 3 (by decide)).2⟩

/-- C3: the scanning functions return the accumulated callback results
over exactly the entries delivered before the first malformed entry, and
a datagram declaring 3 answers while holding only 1 complete answer
record delivers exactly that one entry. -/
theorem c3_partial_delivery :
    (∀ (buffer : List Nat) (cb : MdnsEntry → Nat),
      mdns_socket_listen buffer cb = ((deliveredEntries buffer).map cb).sum ∧
      mdns_discovery_recv buffer cb = ((deliveredEntries buffer).map cb).sum ∧
      ∀ lastTid : Nat, mdns_query_recv lastTid buffer cb false =
        ((deliveredEntries buffer).map cb).sum) ∧
    deliveredEntries answer3Dgram = [answer3Entry] ∧
    mdns_socket_listen answer3Dgram (fun _ => 1) = 1 := by
  refine ⟨?_, by decide, by decide⟩
  intro buffer cb
  refine ⟨mdnsScanAcc_eq buffer cb, mdnsScanAcc_eq buffer cb, ?_⟩
  intro lastTid
  unfold mdns_query_recv
  rw [if_neg (by simp)]
  exact mdnsScanAcc_eq buffer cb

/-- C7: a datagram shorter than the 12-byte header is discarded: all
receive functions deliver no entries and return zero. -/
theorem c7_short_datagram :
    ∀ (buffer : List Nat) (cb : MdnsEntry → Nat) (lastTid : Nat) (onlyLast : Bool),
      buffer.length < 12 →
      mdns_socket_listen buffer cb = 0 ∧
      mdns_discovery_recv buffer cb = 0 ∧
      mdns_query_recv lastTid buffer cb onlyLast = 0 ∧
      deliveredEntries buffer = [] ∧
      queryRecvDelivered lastTid buffer onlyLast = [] := by
  intro buffer cb lastTid onlyLast h
  have hacc : mdnsScanAcc buffer cb = 0 := by
    unfold mdnsScanAcc
    rw [if_pos h]
  have hdel : deliveredEntries buffer = [] := by
    unfold deliveredEntries
    rw [if_pos h]
  refine ⟨hacc, hacc, ?_, hdel, ?_⟩
  · unfold mdns_query_recv
    split
    · rfl
    · exact hacc
  · unfold queryRecvDelivered
    split
    · rfl
    · exact hdel

/-- Witness for C7: a 3-byte datagram yields no entries and zero from
every receive function. -/
theorem c7_short_witness :
    mdns_socket_listen [1, 2, 3] (fun _ => 5) = 0 ∧
    mdns_discovery_recv [1, 2, 3] (fun _ => 5) = 0 ∧
    mdns_query_recv 3 [1, 2, 3] (fun _ => 5) false = 0 ∧
    deliveredEntries [1, 2, 3] = [] ∧
    queryRecvDelivered 3 [1, 2, 3] false = [] :=
  c7_short_datagram [1, 2, 3] (fun _ => 5) 3 false (by decide)

/-- C8: with the last-query filter on, mdns_query_recv delivers only
entries whose transaction id equals the transaction id of the most recent
query sent on the socket (the caller state passed in), a datagram with any
other transaction id is ignored entirely, and mdns_query_send returns the
very transaction id it wrote into the query header. -/
theorem c8_last_query_filter :
    (∀ (lastTid : Nat) (buffer : List Nat) (e : MdnsEntry),
      e ∈ queryRecvDelivered lastTid buffer true →
      e.transactionId = lastTid) ∧
    (∀ (lastTid : Nat) (buffer : List Nat),
      readU16 buffer 0 ≠ lastTid →
      queryRecvDelivered lastTid buffer true = [] ∧
      ∀ cb, mdns_query_recv lastTid buffer cb true = 0) ∧
    (∀ (tid rt cap : Nat) (qname dg : List Nat) (outTid : Nat),
      tid < 65536 →
      mdns_query_send tid qname rt cap = .ok (dg, outTid) →
      outTid = tid ∧ readU16 dg 0 = tid) := by
  refine ⟨?_, ?_, ?_⟩
  · intro lastTid buffer e he
    unfold queryRecvDelivered at he
    by_cases hc : readU16 buffer 0 = lastTid
    · rw [if_neg (by simp [hc])] at he
      rw [deliveredEntries_tid buffer e he, hc]
    · rw [if_pos ⟨rfl, hc⟩] at he
      simp at he
  · intro lastTid buffer hne
    constructor
    · unfold queryRecvDelivered
      rw [if_pos ⟨rfl, hne⟩]
    · intro cb
      unfold mdns_query_recv
      rw [if_pos ⟨rfl, hne⟩]
  · intro tid rt cap qname dg outTid htid h
    unfold mdns_query_send at h
    cases hm : mdns_string_make cap qname with
    | error e => rw [hm] at h; exact absurd h (by simp)
    | ok enc =>
      rw [hm] at h
      dsimp only at h
      split at h
      · have h2 := Except.ok.inj h
        simp only [Prod.mk.injEq] at h2
        constructor
        · rw [← h2.2]; omega
        · rw [← h2.1]
          simp only [writeU16, readU16, List.cons_append, List.nil_append,
            List.getD_cons_zero, List.getD_cons_succ]
          omega
      · exact absurd h (by simp)

/-- Witness for C8: the answer datagram with transaction id 7 delivers an
entry carrying id 7 when the last query id is 7, is ignored entirely when
the last query id is 9, and a query sent with id 7 carries 7 in its
header. -/
theorem c8_filter_witness :
    answer3Entry.transactionId = 7 ∧
    queryRecvDelivered 9 answer3Dgram true = [] ∧
    mdns_query_recv 9 answer3Dgram (fun _ => 1) true = 0 ∧
    ((7 : Nat) = 7 ∧
      readU16 [0, 7, 0, 0, 0, 1, 0, 0, 0, 0, 0, 0, 1, 97, 0, 0, 12, 0, 1] 0 = 7) :=
  ⟨c8_last_query_filter.1 7 answer3Dgram answer3Entry (by decide),
   (c8_last_query_filter.2.1 9 answer3Dgram (by decide)).1,
   (c8_last_query_filter.2.1 9 answer3Dgram (by decide)).2 (fun _ => 1),
   c8_last_query_filter.2.2 7 12 300 [97]
     [0, 7, 0, 0, 0, 1, 0, 0, 0, 0, 0, 0, 1, 97, 0, 0, 12, 0, 1] 7
     (by decide) (by rfl)⟩
